import Mathlib

/-!
Verification development for the needacab-webhooks event store and query
engine (`src/unnamed/part_000`, an Express server).  The JavaScript source
is shallowly embedded: JSON values become the inductive `Json`, the pure
helper functions (`stringifySafe`, `csvEscape`, `getByPath`, `deepAny`,
`tokenizeQuery`, `parseTokens`, the matchers, `loadHook`, the cache update
of `storeEvent`, the sort/truncate/serialize pipelines of the routes)
become Lean functions of the same names, and fallible JavaScript code
(expressions that can throw `TypeError`) returns `Option`.  Platform
primitives (`JSON.parse`, `crypto.randomUUID`, `new Date`, the file
system) are passed in as explicit parameters or inputs.
-/

/-! ## Generic string and list helpers (JS semantics) -/

/-- Occurrence of `sub` as a contiguous infix of `l` (JS `String.prototype.includes`
on the underlying character lists). -/
def listInfix [BEq α] (sub : List α) : List α → Bool
  | [] => sub.isEmpty
  | a :: t => sub.isPrefixOf (a :: t) || listInfix sub t

/-- JS `haystack.includes(needle)`. -/
def strIncludes (haystack needle : String) : Bool :=
  listInfix needle.data haystack.data

/-- JS `Array.prototype.join(sep)`. -/
def jsJoin (sep : String) : List String → String
  | [] => ""
  | [x] => x
  | x :: y :: rest => x ++ sep ++ jsJoin sep (y :: rest)

/-- The whitespace characters of JS `/\s/` and `String.prototype.trim`
(ASCII portion; the payloads under verification are ASCII). -/
def wsChar (c : Char) : Bool :=
  c = ' ' || c = '\t' || c = '\n' || c = '\r'

/-- JS `String.prototype.trim`. -/
def jsTrim (s : String) : String :=
  String.mk (((s.data.dropWhile wsChar).reverse.dropWhile wsChar).reverse)

/-- ASCII lower-casing of one character (JS `toLowerCase` on the ASCII
payloads under verification). -/
def charLower (c : Char) : Char :=
  if 65 ≤ c.toNat && c.toNat ≤ 90 then Char.ofNat (c.toNat + 32) else c

/-- JS `String.prototype.toLowerCase`. -/
def jsToLower (s : String) : String :=
  String.mk (s.data.map charLower)

/-- JS `String.prototype.split` with a one-character separator. -/
def splitOnChar (sep : Char) : List Char → List (List Char)
  | [] => [[]]
  | c :: rest =>
    match splitOnChar sep rest with
    | [] => [[]]
    | g :: gs => if c = sep then [] :: (g :: gs) else (c :: g) :: gs

/-- JS `s.split(sep)` for a one-character separator. -/
def jsSplit (sep : Char) (s : String) : List String :=
  (splitOnChar sep s.data).map String.mk

/-- JS `s.startsWith(c)` for a one-character argument. -/
def jsStartsWith (s : String) (c : Char) : Bool :=
  match s.data with
  | [] => false
  | c0 :: _ => c0 = c

/-- JS `s.endsWith(c)` for a one-character argument. -/
def jsEndsWith (s : String) (c : Char) : Bool :=
  match s.data.getLast? with
  | none => false
  | some c0 => c0 = c

/-! ## JSON value model

The tagged representation of JavaScript/JSON values that every traversal
and matching algorithm of the source operates over.  Numbers are modelled
as integers (the payloads and claims under verification use only string
and integer leaves; IEEE-754 specifics are never exercised). -/

inductive Json where
  | null : Json
  | bool (b : Bool) : Json
  | num (n : Int) : Json
  | str (s : String) : Json
  | arr (elems : List Json) : Json
  | obj (fields : List (String × Json)) : Json

/-- JS truthiness of a JSON value (`null`, `false`, `0` and `""` are falsy). -/
def jsFalsy : Json → Bool
  | .null => true
  | .bool b => !b
  | .num n => n == 0
  | .str s => s == ""
  | _ => false

/-- Hex digit for `\u00XX` escapes. -/
def hexDigit (n : Nat) : Char :=
  if n < 10 then Char.ofNat (48 + n) else Char.ofNat (87 + n)

/-- `JSON.stringify` escaping of a single character inside a string literal. -/
def escChar (c : Char) : List Char :=
  if c = '"' then ['\\', '"']
  else if c = '\\' then ['\\', '\\']
  else if c = '\n' then ['\\', 'n']
  else if c = '\r' then ['\\', 'r']
  else if c = '\t' then ['\\', 't']
  else if c = '\x08' then ['\\', 'b']
  else if c = '\x0c' then ['\\', 'f']
  else if c.toNat < 32 then ['\\', 'u', '0', '0', hexDigit (c.toNat / 16), hexDigit (c.toNat % 16)]
  else [c]

/-- `JSON.stringify` escaping of the body of a string literal. -/
def jsonEscape (s : String) : String :=
  String.mk (s.data.flatMap escChar)

/-- Decimal digit character. -/
def digitCh (n : Nat) : Char :=
  Char.ofNat (48 + n)

/-- Decimal digits of a natural number, most significant first. -/
def natDigits (n : Nat) : List Char :=
  if h : n < 10 then [digitCh n]
  else natDigits (n / 10) ++ [digitCh (n % 10)]
decreasing_by
  exact Nat.div_lt_self (by omega) (by omega)

/-- Decimal rendering of an integer (the `JSON.stringify` number output for
the integral values modelled here). -/
def intRender : Int → String
  | .ofNat m => String.mk (natDigits m)
  | .negSucc m => String.mk ('-' :: natDigits (m + 1))

mutual
/-- `JSON.stringify` of a JSON value (object keys serialized in insertion
order, no pretty-printing), as used by `storeEvent`, `stringifySafe` and
the NDJSON exporter. -/
def Json.render : Json → String
  | .null => "null"
  | .bool b => if b then "true" else "false"
  | .num n => intRender n
  | .str s => "\"" ++ jsonEscape s ++ "\""
  | .arr xs => "[" ++ Json.renderElems xs ++ "]"
  | .obj kvs => "\x7b" ++ Json.renderFields kvs ++ "\x7d"

/-- Comma-separated rendering of array elements. -/
def Json.renderElems : List Json → String
  | [] => ""
  | [x] => x.render
  | x :: y :: rest => x.render ++ "," ++ Json.renderElems (y :: rest)

/-- Comma-separated rendering of object fields. -/
def Json.renderFields : List (String × Json) → String
  | [] => ""
  | [(k, v)] => "\"" ++ jsonEscape k ++ "\":" ++ v.render
  | (k, v) :: kv :: rest =>
      "\"" ++ jsonEscape k ++ "\":" ++ v.render ++ "," ++ Json.renderFields (kv :: rest)
end

/-! ## `stringifySafe` (lines 113–120)

`stringifySafe(x)` returns `x` itself when `x` is a string and
`JSON.stringify(x)` otherwise.  Crucially, `JSON.stringify(undefined)`
evaluates to `undefined` (it does not throw, so the `catch` branch never
fires for it); the JS value `undefined` is modelled as `none`. -/

/-- `stringifySafe` on a defined JSON value: strings pass through unchanged,
everything else is JSON-rendered. -/
def stringifySafeJ : Json → String
  | .str s => s
  | v => v.render

/-- `stringifySafe` on a possibly-`undefined` value: `undefined` propagates
(`JSON.stringify(undefined)` is `undefined`). -/
def stringifySafe : Option Json → Option String
  | none => none
  | some v => some (stringifySafeJ v)

/-! ## Deep key search (`deepAny`, lines 201–214)

The source walks the event with an explicit LIFO work list and returns as
soon as the predicate accepts a visited `(key, value)` pair.  Array
elements are pushed with the *enclosing* key (`stack.push({value: value[i],
key})`), object entries with their own key.  Since the result is exactly
"some visited pair satisfies the predicate", the traversal order and the
early exit do not affect the returned boolean, and the walk is embedded as
a structural recursion computing that same existence. -/

mutual
/-- Does the predicate accept `(key, v)` or any pair visited below `v`?
The root is visited with key `none` (JS `null`). -/
def deepAnyVal (p : Option String → Json → Bool) (key : Option String) (v : Json) : Bool :=
  p key v ||
    match v with
    | .arr xs => deepAnyElems p key xs
    | .obj kvs => deepAnyFields p kvs
    | _ => false

/-- Array elements are visited with the enclosing key. -/
def deepAnyElems (p : Option String → Json → Bool) (key : Option String) : List Json → Bool
  | [] => false
  | x :: rest => deepAnyVal p key x || deepAnyElems p key rest

/-- Object entries are visited with their own key. -/
def deepAnyFields (p : Option String → Json → Bool) : List (String × Json) → Bool
  | [] => false
  | (k, v) :: rest => deepAnyVal p (some k) v || deepAnyFields p rest
end

/-- `deepAny(obj, predicate)` (lines 201–214). -/
def deepAny (o : Json) (p : Option String → Json → Bool) : Bool :=
  deepAnyVal p none o

/-- `eventMatchesFieldToken` (lines 216–222): deep search for an object
property whose key equals `keyLower` case-insensitively and whose
stringified value contains `valueLower`. -/
def eventMatchesFieldToken (evt : Json) (keyLower valueLower : String) : Bool :=
  deepAny evt fun field val =>
    match field with
    | none => false
    | some f =>
      if f = "" then false
      else if jsToLower f ≠ keyLower then false
      else strIncludes (jsToLower (stringifySafeJ val)) valueLower

/-- `eventMatchesTextToken` (lines 224–226). -/
def eventMatchesTextToken (evt : Json) (tokenLower : String) : Bool :=
  strIncludes (jsToLower (stringifySafeJ evt)) tokenLower

/-! ## Dotted path resolution (`getByPath`, lines 230–239) -/

/-- One step `cur[p]` of JS property access on a defined, non-null value:
object key lookup (keys are unique in practice; the first binding wins),
or array indexing by a canonical decimal index.  `undefined` is `none`.
(JS exotica such as `length` properties and character indexing of string
primitives are not modelled; no claim exercises them.) -/
def jsIndex : Json → String → Option Json
  | .obj kvs, p => kvs.lookup p
  | .arr xs, p =>
      match p.toNat? with
      | some n => if toString n = p then xs.get? n else none
      | none => none
  | _, _ => none

/-- The `for` loop of `getByPath`: before each step, `cur == null`
(JS `null` or `undefined`) aborts with `undefined`. -/
def getByPathGo : Option Json → List String → Option Json
  | cur, [] => cur
  | none, _ :: _ => none
  | some .null, _ :: _ => none
  | some c, p :: rest => getByPathGo (jsIndex c p) rest

/-- `getByPath(obj, pathStr)` (lines 230–239): falsy root or empty path
resolve to `undefined`; otherwise the dot-separated segments (empty
segments dropped) are followed from the root. -/
def getByPath (obj : Json) (pathStr : String) : Option Json :=
  if jsFalsy obj || pathStr = "" then none
  else getByPathGo (some obj) ((jsSplit '.' pathStr).filter (fun p => p ≠ ""))

/-- `eventMatchesSelectedField` (lines 245–256).  Empty trimmed value
matches everything; empty/`any`/`fulltext` field searches the whole
stringified event; otherwise the resolved path value is stringified and
searched.  When the path does not resolve, `stringifySafe` returns the JS
value `undefined` and the subsequent `.toLowerCase()` throws a
`TypeError`; the thrown state is `none`. -/
def eventMatchesSelectedField (evt : Json) (fieldPath value : String) : Option Bool :=
  let v := jsToLower (jsTrim value)
  if v = "" then some true
  else
    let f := jsTrim fieldPath
    if f = "" || f = "any" || f = "fulltext" then
      some (strIncludes (jsToLower (stringifySafeJ evt)) v)
    else
      match stringifySafe (getByPath evt f) with
      | none => none
      | some s => some (strIncludes (jsToLower s) v)

/-! ## Advanced-query tokenizer (`tokenizeQuery`, lines 134–167)

The scanner splits on whitespace outside quoted spans; quote characters
are kept in the raw token text (stripping happens later in
`parseTokens`). -/

/-- One token scan starting at the current position.  The second argument
is the `inQuotes`/`quoteChar` state; the result is the scanned raw token
text and the unconsumed remainder (starting at the whitespace that broke
the scan, or empty). -/
def scanToken : List Char → Option Char → List Char × List Char
  | [], _ => ([], [])
  | c :: rest, some qc =>
      if c = qc then
        let r := scanToken rest none
        (c :: r.1, r.2)
      else
        let r := scanToken rest (some qc)
        (c :: r.1, r.2)
  | c :: rest, none =>
      if c = '"' ∨ c = '\'' then
        let r := scanToken rest (some c)
        (c :: r.1, r.2)
      else if wsChar c then ([], c :: rest)
      else
        let r := scanToken rest none
        (c :: r.1, r.2)

theorem scanToken_rest_le (cs : List Char) (st : Option Char) :
    (scanToken cs st).2.length ≤ cs.length := by
  induction cs generalizing st with
  | nil => cases st <;> simp [scanToken]
  | cons c rest ih =>
    cases st with
    | some qc =>
      by_cases h : c = qc <;> simp [scanToken, h] <;>
        exact Nat.le_succ_of_le (ih _)
    | none =>
      by_cases h1 : c = '"' ∨ c = '\'' <;>
        by_cases h2 : wsChar c <;>
          simp [scanToken, h1, h2] <;> exact Nat.le_succ_of_le (ih _)

theorem scanToken_rest_lt (c : Char) (rest : List Char) (h : ¬ wsChar c) :
    (scanToken (c :: rest) none).2.length < (c :: rest).length := by
  by_cases h1 : c = '"' ∨ c = '\'' <;> simp [scanToken, h1, h] <;>
    exact Nat.lt_succ_of_le (scanToken_rest_le _ _)

/-- The outer `while` loop of `tokenizeQuery`: skip whitespace, scan one
raw token, keep it if nonempty after trimming, continue. -/
def tokenizeLoop (cs : List Char) : List String :=
  match h : cs.dropWhile wsChar with
  | [] => []
  | c :: rest =>
    let tr := scanToken (c :: rest) none
    let raw := jsTrim (String.mk tr.1)
    let tailToks := tokenizeLoop tr.2
    if raw = "" then tailToks else raw :: tailToks
termination_by cs.length
decreasing_by
  have hl : 0 < (cs.dropWhile wsChar).length := by rw [h]; simp
  have hc : ¬ wsChar c := by
    have h0 := List.dropWhile_get_zero_not (p := wsChar) cs hl
    simpa [h] using h0
  calc (scanToken (c :: rest) none).2.length
      < (c :: rest).length := scanToken_rest_lt c rest hc
    _ ≤ cs.length := by
        rw [← h]
        exact (List.dropWhile_suffix wsChar).sublist.length_le

/-- `tokenizeQuery(q)` (lines 134–167). -/
def tokenizeQuery (q : String) : List String :=
  tokenizeLoop q.data

/-! ## Token classification (`parseTokens`, lines 169–199) -/

/-- The parsed advanced query: conjunctive field constraints and text
constraints. -/
structure Tokens where
  fieldTokens : List (String × String)
  textTokens : List String

/-- JS `s.slice(1, -1)`. -/
def jsSliceOneNegOne (v : String) : String :=
  String.mk ((v.data.drop 1).dropLast)

/-- Strip one layer of matching surrounding single or double quotes
(`value.startsWith('"') && value.endsWith('"')`, etc.). -/
def stripQuotes (v : String) : String :=
  if (jsStartsWith v '"' && jsEndsWith v '"') || (jsStartsWith v '\'' && jsEndsWith v '\'') then
    jsSliceOneNegOne v
  else v

/-- The free-text fallback of the token loop: trim, strip quotes, keep if
nonempty, lower-case. -/
def textFallback (t : String) (acc : Tokens) : Tokens :=
  let v := stripQuotes (jsTrim t)
  if v ≠ "" then ⟨acc.fieldTokens, jsToLower v :: acc.textTokens⟩ else acc

/-- The classification loop of `parseTokens`: a token with a `:` after at
least one character, whose trimmed key and trimmed quote-stripped value
are both nonempty, is a field token (both lower-cased); everything else
falls back to a text token. -/
def parseTokensGo : List String → Tokens
  | [] => ⟨[], []⟩
  | t :: rest =>
    let acc := parseTokensGo rest
    let d := t.data
    let idx := d.findIdx (· = ':')
    if 0 < idx ∧ idx < d.length then
      let key := jsTrim (String.mk (d.take idx))
      let value := stripQuotes (jsTrim (String.mk (d.drop (idx + 1))))
      if key ≠ "" ∧ value ≠ "" then
        ⟨(jsToLower key, jsToLower value) :: acc.fieldTokens, acc.textTokens⟩
      else textFallback t acc
    else textFallback t acc

/-- `parseTokens(q)` (lines 169–199). -/
def parseTokens (q : String) : Tokens :=
  parseTokensGo (tokenizeQuery q)

/-- `normalizeQ(q)` (lines 122–125): trim, empty stays empty. -/
def normalizeQ (q : String) : String :=
  jsTrim q

/-! ## Combined matcher (`eventMatches`, lines 261–277) -/

/-- The advanced-query part of `eventMatches`: empty normalized query
matches everything, otherwise every field token and every text token must
match. -/
def eventMatchesRest (evt : Json) (q : String) : Bool :=
  let qq := normalizeQ q
  if qq = "" then true
  else
    let ts := parseTokens qq
    ts.fieldTokens.all (fun ft => eventMatchesFieldToken evt ft.1 ft.2) &&
      ts.textTokens.all (fun tt => eventMatchesTextToken evt tt)

/-- `eventMatches(evt, {q, field, value})` (lines 261–277).  When a
selected-field value is present the selected-field filter runs first; a
`TypeError` thrown there (`none`) propagates out of the matcher. -/
def eventMatches (evt : Json) (q field value : String) : Option Bool :=
  if value ≠ "" ∧ jsTrim value ≠ "" then
    match eventMatchesSelectedField evt field value with
    | none => none
    | some false => some false
    | some true => some (eventMatchesRest evt q)
  else some (eventMatchesRest evt q)

/-! ## Event store (lines 51–96)

`MAX_RECENT_PER_HOOK` and `MAX_EXPORT` are `Number(process.env... || d)`;
the defaults are used. -/

/-- Cache capacity per channel (line 11, default). -/
def MAX_RECENT_PER_HOOK : Nat := 500

/-- Export cap (line 12, default). -/
def MAX_EXPORT : Nat := 20000

/-- An event as constructed by `storeEvent` (lines 82–88): fresh id,
channel name, ISO timestamp, transport metadata, payload.  `meta` and
`payload` are arbitrary JSON values. -/
structure Event where
  id : String
  hook : String
  receivedAt : String
  meta : Json
  payload : Json

/-- The JS object literal built by `storeEvent` (lines 82–88), key order
preserved. -/
def mkEvent (id hook receivedAt : String) (meta payload : Json) : Json :=
  .obj [("id", .str id), ("hook", .str hook), ("receivedAt", .str receivedAt),
        ("meta", meta), ("payload", payload)]

/-- The JS object backing an `Event`. -/
def eventToJson (e : Event) : Json :=
  mkEvent e.id e.hook e.receivedAt e.meta e.payload

/-- `JSON.stringify(evt)` — one NDJSON line. -/
def renderEvent (e : Event) : String :=
  (eventToJson e).render

/-- The cache update of `storeEvent` (lines 90–92):
`arr.unshift(evt); if (arr.length > MAX_RECENT_PER_HOOK) arr.pop();`.
The update never inspects the elements, so it is polymorphic (used both
for `Event` values and for their raw JSON objects). -/
def storeCachePush (evt : α) (arr : List α) : List α :=
  let a := evt :: arr
  if a.length > MAX_RECENT_PER_HOOK then a.dropLast else a

/-- A sequence of ingests through `storeEvent` into one channel's cache
(first list element ingested first). -/
def ingestList (es : List α) (arr : List α) : List α :=
  es.foldl (fun acc e => storeCachePush e acc) arr

/-- `loadHook(hook)` (lines 58–74).  The file system read is the input:
`none` when the file does not exist, `some raw` for its contents.
`jparse` is the platform `JSON.parse`, returning `none` when parsing
throws.  The source trims the raw text, splits on newlines, drops blank
lines, keeps the last `MAX_RECENT_PER_HOOK` lines (`slice(-MAX)`), parses
each line, and keeps the truthy parse results (`.filter(Boolean)` — this
drops failed parses *and* lines parsing to falsy JSON values). -/
def loadHook (jparse : String → Option Json) (file : Option String) : List Json :=
  match file with
  | none => []
  | some content =>
    let raw := jsTrim content
    if raw = "" then []
    else
      let lines := (jsSplit '\n' raw).filter (fun l => l ≠ "")
      let tail := lines.drop (lines.length - MAX_RECENT_PER_HOOK)
      tail.filterMap fun l =>
        match jparse l with
        | none => none
        | some j => if jsFalsy j then none else some j

/-- `receivedAt` of a raw JSON event object (used to state ordering
properties of caches hydrated from disk). -/
def recvOf (j : Json) : String :=
  match j with
  | .obj kvs =>
    match kvs.lookup "receivedAt" with
    | some (.str s) => s
    | _ => ""
  | _ => ""

/-! ## The aggregation comparator and stable sort (lines 517–519, 555–557, 584–586)

`filtered.sort((a, b) => a.receivedAt < b.receivedAt ? 1 : a.receivedAt >
b.receivedAt ? -1 : 0)`.  ECMAScript mandates that `Array.prototype.sort`
is stable, and for a consistent comparator every stable sort produces the
same unique output, so the call is modelled by insertion sort keeping
earlier elements first on ties. -/

/-- JS `<` on strings: lexicographic comparison by code units, stated on
the underlying character lists (definitionally the same order as
`String.instLT`, but with a structurally computable `Decidable`
instance). -/
def jsStrLt (a b : String) : Prop :=
  List.lt a.data b.data

instance : DecidableRel jsStrLt := fun a b =>
  List.hasDecidableLt a.data b.data

theorem jsStrLt_iff (a b : String) : jsStrLt a b ↔ a < b := by
  rw [String.lt_iff_toList_lt]
  exact List.lt_iff_lex_lt a.data b.data

/-- The comparator passed to `.sort` (identical in all three routes). -/
def jsCmpRecv (a b : Event) : Int :=
  if jsStrLt a.receivedAt b.receivedAt then 1
  else if jsStrLt b.receivedAt a.receivedAt then -1
  else 0

/-- "`a` need not be moved after `b`": the comparator does not order `a`
strictly after `b`. -/
def sortKeep (a b : Event) : Prop := jsCmpRecv a b ≤ 0

instance : DecidableRel sortKeep := fun a b => by
  unfold sortKeep
  infer_instance

theorem sortKeep_iff (a b : Event) :
    sortKeep a b ↔ b.receivedAt ≤ a.receivedAt := by
  rcases lt_trichotomy a.receivedAt b.receivedAt with h | h | h
  · have hc : jsCmpRecv a b = 1 := by simp [jsCmpRecv, jsStrLt_iff, h]
    simp [sortKeep, hc, not_le.mpr h]
  · have hc : jsCmpRecv a b = 0 := by simp [jsCmpRecv, jsStrLt_iff, h]
    simp [sortKeep, hc, h, le_refl]
  · have hc : jsCmpRecv a b = -1 := by simp [jsCmpRecv, jsStrLt_iff, asymm h, h]
    simp [sortKeep, hc, le_of_lt h]

instance : IsTotal Event sortKeep where
  total a b := by
    rw [sortKeep_iff, sortKeep_iff]
    exact le_total _ _

instance : IsTrans Event sortKeep where
  trans a b c hab hbc := by
    rw [sortKeep_iff] at *
    exact le_trans hbc hab

/-- The (stable) `Array.prototype.sort` call of the aggregation and export
routes. -/
def sortEvents (l : List Event) : List Event :=
  List.insertionSort sortKeep l

/-! ## Route helpers -/

/-- `eventMatches` applied to an event object, as the route filters do
(`arr.filter((evt) => eventMatches(evt, { q, field, value }))`). -/
def eventMatchesE (e : Event) (q field value : String) : Option Bool :=
  eventMatches (eventToJson e) q field value

/-- JS `Array.prototype.filter` with a predicate that can throw: the
elements are tested left to right and the first thrown `TypeError`
(`none`) aborts the whole call. -/
def jsFilter (p : α → Option Bool) : List α → Option (List α)
  | [] => some []
  | x :: xs =>
    match p x with
    | none => none
    | some b =>
      match jsFilter p xs with
      | none => none
      | some r => some (if b then x :: r else r)

/-- The `limit` query parameter as seen by `parseLimit` (line 391): absent
(`null`/`undefined`), the empty string, a string whose `Number(...)` is
not finite (`NaN`/`±Infinity`), or a finite numeric value (integral; the
`Math.floor` of a fractional limit is not exercised by any claim). -/
inductive LimitParam where
  | absent
  | empty
  | nonFinite
  | num (n : Int)

/-- `parseLimit(v)` (lines 391–396): absent/empty means `0` (unlimited),
non-finite or negative means `50`, otherwise the floored value. -/
def parseLimit : LimitParam → Nat
  | .absent => 0
  | .empty => 0
  | .nonFinite => 50
  | .num n => if n < 0 then 50 else n.toNat

/-- Whether the routes run the filter at all:
`if (q || (value && value.trim()))` (lines 468, 513, 554, 583), with `q`
already normalized. -/
def wantsFilter (q value : String) : Bool :=
  q ≠ "" || (value ≠ "" && jsTrim value ≠ "")

/-- The filter step shared by the query and export routes: the cache is
used as is when no filter is requested, otherwise filtered (a thrown
`TypeError` from the selected-field filter aborts the request). -/
def routeFilter (events : List Event) (q field value : String) : Option (List Event) :=
  if wantsFilter q value then jsFilter (fun evt => eventMatchesE evt q field value) events
  else some events

/-- `GET /api/hooks/:hook` (lines 456–486), reduced to its data content:
given the channel's cache, return the total match count and the
(possibly limited) item list.  `q` is normalized on entry (line 460);
`limit === 0` means unlimited, otherwise `filtered.slice(0,
Math.min(5000, limit))` (line 472).  The `_summary` decoration of each
returned item (line 473) is a pure display augmentation and carries no
claim-relevant content. -/
def queryHook (arr : List Event) (qRaw field value : String) (lim : LimitParam) :
    Option (Nat × List Event) :=
  let q := normalizeQ qRaw
  let limit := parseLimit lim
  match routeFilter arr q field value with
  | none => none
  | some filtered =>
    some (filtered.length,
      if limit = 0 then filtered else filtered.take (min 5000 limit))

/-- `GET /api/events` (lines 499–536): concatenate every enumerated
channel's cache (in `listHooksOnDisk` order), filter, sort by
`receivedAt` descending, limit.  The count is the number of matches. -/
def aggregateEvents (caches : List (List Event)) (qRaw field value : String)
    (lim : LimitParam) : Option (Nat × List Event) :=
  let q := normalizeQ qRaw
  let limit := parseLimit lim
  let combined := caches.flatten
  match routeFilter combined q field value with
  | none => none
  | some filtered =>
    let sorted := sortEvents filtered
    some (sorted.length,
      if limit = 0 then sorted else sorted.take (min 5000 limit))

/-! ## Exporters (lines 539–612) -/

/-- The NDJSON body (line 565):
`events.map((e) => JSON.stringify(e)).join("\n") + (events.length ? "\n" : "")`. -/
def ndjsonBody (events : List Event) : String :=
  jsJoin "\n" (events.map renderEvent) ++ (if events.length ≠ 0 then "\n" else "")

/-- The common tail of `GET /api/export.ndjson` (lines 554–565) applied to
the scope's gathered events: filter, sort by `receivedAt` descending,
truncate to `MAX_EXPORT` after sorting, serialize one JSON line per
event. -/
def ndjsonOf (events : List Event) (qRaw field value : String) : Option String :=
  let q := normalizeQ qRaw
  match routeFilter events q field value with
  | none => none
  | some filtered =>
    let sorted := sortEvents filtered
    let capped := if sorted.length > MAX_EXPORT then sorted.take MAX_EXPORT else sorted
    some (ndjsonBody capped)

/-- `csvEscape(value)` (lines 127–131): `null`/`undefined` becomes the
empty string; a value containing `"`, `,`, `\n` or `\r` (the regex
`/[",\n\r]/`) is wrapped in double quotes with embedded double quotes
doubled; anything else is returned unchanged. -/
def hasCsvSpecial (s : String) : Bool :=
  s.data.any fun c => c = '"' || c = ',' || c = '\n' || c = '\r'

/-- `s.replace(/"/g, '""')`. -/
def doubleQuotesCh (l : List Char) : List Char :=
  l.flatMap fun c => if c = '"' then ['"', '"'] else [c]

/-- `csvEscape` (lines 127–131). -/
def csvEscape (value : Option String) : String :=
  let s := value.getD ""
  if hasCsvSpecial s then "\"" ++ String.mk (doubleQuotesCh s.data) ++ "\""
  else s

/-- `meta?.ip || ""` style access: the meta object's field as a string,
empty when missing (the receiver stores these fields as strings or
`null`). -/
def metaField (m : Json) (k : String) : String :=
  match m with
  | .obj kvs =>
    match kvs.lookup k with
    | some (.str s) => s
    | _ => ""
  | _ => ""

/-- `e.payload ?? {}` (line 601). -/
def payloadOrEmpty : Json → Json
  | .null => .obj []
  | v => v

/-- One CSV data row (lines 592–604). -/
def csvRow (e : Event) : String :=
  jsJoin ","
    [csvEscape (some e.receivedAt), csvEscape (some e.id), csvEscape (some e.hook),
     csvEscape (some (metaField e.meta "ip")), csvEscape (some (metaField e.meta "contentType")),
     csvEscape (some (metaField e.meta "userAgent")),
     csvEscape (some (stringifySafeJ (payloadOrEmpty e.payload)))]

/-- The CSV header (line 589). -/
def csvHeader : String :=
  jsJoin "," ["receivedAt", "id", "hook", "ip", "contentType", "userAgent", "payloadJson"]

/-- The common tail of `GET /api/export.csv` (lines 583–611): filter, sort,
truncate, then `rows.join("\n") + "\n"` with the header first. -/
def csvOf (events : List Event) (qRaw field value : String) : Option String :=
  let q := normalizeQ qRaw
  match routeFilter events q field value with
  | none => none
  | some filtered =>
    let sorted := sortEvents filtered
    let capped := if sorted.length > MAX_EXPORT then sorted.take MAX_EXPORT else sorted
    some (jsJoin "\n" (csvHeader :: capped.map csvRow) ++ "\n")

/-! ## Stateful export (aliasing of the live cache)

`recentByHook` maps a channel name to its cache *array object*.  For a
single-channel export with no filter, `events` is that very array
(line 551 / 580), and `events.sort(...)` (lines 555 / 584) sorts it in
place, so the channel's cache itself ends up reordered.  The wildcard
scope builds a fresh concatenation (line 548 / 577) and a requested
filter builds a fresh array (`Array.prototype.filter`), leaving the
caches untouched.  The aliasing is made explicit by state passing: the
operation returns the response body together with the updated map. -/

/-- The in-memory channel map `recentByHook` (line 52), with caches of
well-formed events. -/
def EStore := List (String × List Event)

/-- Replace one channel's cache array. -/
def updateStore (store : EStore) (hook : String) (arr : List Event) : EStore :=
  store.map fun kv => if kv.1 = hook then (kv.1, arr) else kv

/-- `GET /api/export.ndjson` (lines 539–566) with the cache map threaded
through.  The scope is assumed validated (`isHookAllowed`); channels are
assumed loaded (`ensureHookLoaded` on a hydrated map is a pure lookup,
line 77–78), with a missing channel yielding an empty cache. -/
def exportNdjsonSt (store : EStore) (scope qRaw field value : String) :
    Option (String × EStore) :=
  if scope = "*" then
    match ndjsonOf ((store.map Prod.snd).flatten) qRaw field value with
    | none => none
    | some body => some (body, store)
  else
    let arr := (store.lookup scope).getD []
    let q := normalizeQ qRaw
    if wantsFilter q value then
      match ndjsonOf arr qRaw field value with
      | none => none
      | some body => some (body, store)
    else
      let sorted := sortEvents arr
      let capped := if sorted.length > MAX_EXPORT then sorted.take MAX_EXPORT else sorted
      some (ndjsonBody capped, updateStore store scope sorted)

/-- `GET /api/export.csv` (lines 568–612) with the cache map threaded
through; same aliasing as the NDJSON export. -/
def exportCsvSt (store : EStore) (scope qRaw field value : String) :
    Option (String × EStore) :=
  if scope = "*" then
    match csvOf ((store.map Prod.snd).flatten) qRaw field value with
    | none => none
    | some body => some (body, store)
  else
    let arr := (store.lookup scope).getD []
    let q := normalizeQ qRaw
    if wantsFilter q value then
      match csvOf arr qRaw field value with
      | none => none
      | some body => some (body, store)
    else
      let sorted := sortEvents arr
      let capped := if sorted.length > MAX_EXPORT then sorted.take MAX_EXPORT else sorted
      some (jsJoin "\n" (csvHeader :: capped.map csvRow) ++ "\n", updateStore store scope sorted)

/-! ## Induction principle for the nested `Json` inductive -/

mutual
/-- Structural induction over `Json`, with element-wise hypotheses for the
nested lists. -/
def Json.indOn {motive : Json → Prop}
    (hnull : motive .null) (hbool : ∀ b, motive (.bool b))
    (hnum : ∀ n, motive (.num n)) (hstr : ∀ s, motive (.str s))
    (harr : ∀ xs, (∀ x ∈ xs, motive x) → motive (.arr xs))
    (hobj : ∀ kvs, (∀ kv ∈ kvs, motive kv.2) → motive (.obj kvs)) :
    ∀ j, motive j
  | .null => hnull
  | .bool b => hbool b
  | .num n => hnum n
  | .str s => hstr s
  | .arr xs => harr xs (Json.indOnElems hnull hbool hnum hstr harr hobj xs)
  | .obj kvs => hobj kvs (Json.indOnFields hnull hbool hnum hstr harr hobj kvs)

/-- All elements of a `Json` list satisfy the motive. -/
def Json.indOnElems {motive : Json → Prop}
    (hnull : motive .null) (hbool : ∀ b, motive (.bool b))
    (hnum : ∀ n, motive (.num n)) (hstr : ∀ s, motive (.str s))
    (harr : ∀ xs, (∀ x ∈ xs, motive x) → motive (.arr xs))
    (hobj : ∀ kvs, (∀ kv ∈ kvs, motive kv.2) → motive (.obj kvs)) :
    ∀ xs : List Json, ∀ x ∈ xs, motive x
  | y :: rest, x, hx =>
    match List.mem_cons.mp hx with
    | .inl hxy => hxy ▸ Json.indOn hnull hbool hnum hstr harr hobj y
    | .inr hxr => Json.indOnElems hnull hbool hnum hstr harr hobj rest x hxr

/-- All values of a `Json` field list satisfy the motive. -/
def Json.indOnFields {motive : Json → Prop}
    (hnull : motive .null) (hbool : ∀ b, motive (.bool b))
    (hnum : ∀ n, motive (.num n)) (hstr : ∀ s, motive (.str s))
    (harr : ∀ xs, (∀ x ∈ xs, motive x) → motive (.arr xs))
    (hobj : ∀ kvs, (∀ kv ∈ kvs, motive kv.2) → motive (.obj kvs)) :
    ∀ kvs : List (String × Json), ∀ kv ∈ kvs, motive kv.2
  | kv0 :: rest, kv, hkv =>
    match List.mem_cons.mp hkv with
    | .inl hxy => hxy ▸ Json.indOn hnull hbool hnum hstr harr hobj kv0.2
    | .inr hxr => Json.indOnFields hnull hbool hnum hstr harr hobj rest kv hxr
end

/-! ## Claim 2: selected-field filter -/

/-- The event of the claim's example: payload
`{"Driver":{"Callsign":"51"}}` as stored by the receiver. -/
def evClaim2 : Json :=
  mkEvent "id-1" "tracks" "2024-01-01T00:00:00.000Z" (Json.obj [])
    (Json.obj [("Driver", Json.obj [("Callsign", Json.str "51")])])

/-- Claim C2, code bug: for a resolvable path the selected-field filter
behaves as claimed (`payload.Driver.Callsign` matching `"51"`), but for an
unresolved path (`payload.Vehicle.Callsign` on an event without a
`Vehicle`) `getByPath` yields `undefined`, `stringifySafe` returns it
unchanged (`JSON.stringify(undefined)` is `undefined`), and the
`.toLowerCase()` call on line 255 throws a `TypeError` (`none`) instead of
evaluating to the claimed non-match via the empty string. -/
theorem claim2_code_bug_demo :
    eventMatchesSelectedField evClaim2 "payload.Driver.Callsign" "51" = some true ∧
    eventMatchesSelectedField evClaim2 "payload.Vehicle.Callsign" "51" = none ∧
    eventMatchesSelectedField evClaim2 "payload.Driver.Callsign" "" = some true := by
  refine ⟨?_, ?_, ?_⟩ <;> rfl

/-! ## Claim 3: aggregation ordering -/

/-- Two distinct events carrying the same `receivedAt` timestamp (events
in different channels receive timestamps from the same millisecond clock,
so ties are real). -/
def evTieA : Event := ⟨"id-a", "alpha", "2024-01-01T00:00:00.000Z", .null, .null⟩

/-- Second tied event, distinct id and channel. -/
def evTieB : Event := ⟨"id-b", "beta", "2024-01-01T00:00:00.000Z", .null, .null⟩

/-- Claim C3 is false as stated: the comparator of the aggregation sort
(lines 517–519) compares only `receivedAt` and returns `0` for the two
distinct tied events in both orders — it contains no secondary key
whatsoever, so the order of ties is not determined by the implementation's
comparator.  Consequently the sort maps the two tied events to whatever
relative order they entered in (stability), as the last two conjuncts
show: a genuine implementation-level tie-break would order the pair the
same way from either starting arrangement. -/
theorem claim3_counterexample :
    evTieA.receivedAt = evTieB.receivedAt ∧
    evTieA.id ≠ evTieB.id ∧
    jsCmpRecv evTieA evTieB = 0 ∧
    jsCmpRecv evTieB evTieA = 0 ∧
    sortEvents [evTieA, evTieB] = [evTieA, evTieB] ∧
    sortEvents [evTieB, evTieA] = [evTieB, evTieA] := by
  refine ⟨rfl, by decide, by rfl, by rfl, by rfl, by rfl⟩

theorem filter_orderedInsert (t : String) (x : Event) (L : List Event) :
    (List.orderedInsert sortKeep x L).filter (fun e => e.receivedAt == t) =
      ((x :: L).filter (fun e => e.receivedAt == t)) := by
  induction L with
  | nil => simp [List.orderedInsert]
  | cons y ys ih =>
    by_cases hr : sortKeep x y
    · simp [List.orderedInsert, hr]
    · have hlt : x.receivedAt < y.receivedAt := by
        rw [sortKeep_iff] at hr
        exact lt_of_not_le hr
      simp only [List.orderedInsert, if_neg hr]
      by_cases hx : x.receivedAt = t
      · have hyt : ¬ y.receivedAt = t := by
          rw [← hx]
          exact ne_of_gt hlt
        simp [List.filter_cons, hx, hyt, ih]
      · simp [List.filter_cons, hx, ih]

theorem sortEvents_filter_stable (l : List Event) (t : String) :
    (sortEvents l).filter (fun e => e.receivedAt == t) =
      l.filter (fun e => e.receivedAt == t) := by
  induction l with
  | nil => rfl
  | cons x xs ih =>
    show (List.orderedInsert sortKeep x (sortEvents xs)).filter _ = _
    rw [filter_orderedInsert, List.filter_cons, List.filter_cons, ih]

/-- Claim C3 (amended): the aggregation sort orders by `receivedAt`
descending with *no* explicit tie-break in the comparator; equal-timestamp
events keep their concatenation order purely because `Array.prototype.sort`
is stable (mandated by ECMAScript and modelled as such), which also makes
repeated aggregation calls on a fixed cache state reproducible: the result
is the unique stable-by-concatenation-order descending arrangement — a
permutation of the input, sorted by `receivedAt` descending, in which the
events carrying any fixed timestamp appear exactly in input order. -/
theorem claim3_amended :
    (∀ l : List Event,
      (sortEvents l).Pairwise (fun a b => b.receivedAt ≤ a.receivedAt)) ∧
    (∀ (l : List Event) (t : String),
      (sortEvents l).filter (fun e => e.receivedAt == t) =
        l.filter (fun e => e.receivedAt == t)) ∧
    (∀ l : List Event, (sortEvents l).Perm l) := by
  refine ⟨fun l => ?_, sortEvents_filter_stable, fun l => List.perm_insertionSort sortKeep l⟩
  exact (List.sorted_insertionSort sortKeep l).imp fun hab => (sortKeep_iff _ _).mp hab

/-! ## Claim 1: cache bound and order -/

theorem storeCachePush_length_le (e : α) (arr : List α)
    (h : arr.length ≤ MAX_RECENT_PER_HOOK) :
    (storeCachePush e arr).length ≤ MAX_RECENT_PER_HOOK := by
  simp only [storeCachePush]
  split_ifs with hgt
  · simp only [List.length_dropLast, List.length_cons]
    omega
  · simp only [List.length_cons, gt_iff_lt, not_lt] at *
    omega

theorem take_append_take (A B : List α) (n : Nat) :
    (A ++ B.take n).take n = (A ++ B).take n := by
  rw [List.take_append_eq_append_take, List.take_append_eq_append_take, List.take_take]
  have : min (n - A.length) n = n - A.length := Nat.min_eq_left (Nat.sub_le n A.length)
  rw [this]

theorem ingestList_eq_take (es : List α) :
    ∀ acc : List α, acc.length ≤ MAX_RECENT_PER_HOOK →
      ingestList es acc = (es.reverse ++ acc).take MAX_RECENT_PER_HOOK := by
  induction es with
  | nil =>
    intro acc h
    simp [ingestList, List.take_of_length_le h]
  | cons e es ih =>
    intro acc h
    show ingestList es (storeCachePush e acc) = _
    rw [ih _ (storeCachePush_length_le e acc h)]
    have hrw : (e :: es).reverse ++ acc = es.reverse ++ (e :: acc) := by
      simp [List.reverse_cons, List.append_assoc]
    rw [hrw]
    simp only [storeCachePush]
    split_ifs with hgt
    · have hlen : (e :: acc).length = MAX_RECENT_PER_HOOK + 1 := by
        simp only [List.length_cons, gt_iff_lt] at *
        omega
      have hdl : (e :: acc).dropLast = (e :: acc).take MAX_RECENT_PER_HOOK := by
        rw [List.dropLast_eq_take, hlen]
        simp
      rw [hdl, take_append_take]
    · rfl

/-- Claim C1 (amended): the cap always holds — any ingest sequence on a
cache within capacity (in particular one freshly hydrated by `loadHook`,
which returns at most `MAX_RECENT_PER_HOOK` records) leaves at most
`MAX_RECENT_PER_HOOK` events — and for a channel whose cache starts
*empty* (no pre-existing log) the cache after any ingest sequence is
exactly the most recent `MAX_RECENT_PER_HOOK` events, most recent first;
ingesting `MAX_RECENT_PER_HOOK + 1` events then retains all but the first
(oldest) event, newest first.  (For a cache hydrated from disk the claimed
most-recent-first order and oldest-evicted behavior fail; see the
counterexample.) -/
theorem claim1_amended :
    (∀ (es arr : List Json), arr.length ≤ MAX_RECENT_PER_HOOK →
      (ingestList es arr).length ≤ MAX_RECENT_PER_HOOK) ∧
    (∀ (jparse : String → Option Json) (file : Option String),
      (loadHook jparse file).length ≤ MAX_RECENT_PER_HOOK) ∧
    (∀ es : List Json, ingestList es [] = es.reverse.take MAX_RECENT_PER_HOOK) ∧
    (∀ es : List Json, es.length = MAX_RECENT_PER_HOOK + 1 →
      ingestList es [] = (es.drop 1).reverse) := by
  refine ⟨?_, ?_, ?_, ?_⟩
  · intro es arr h
    rw [ingestList_eq_take es arr h]
    exact List.length_take_le _ _
  · intro jparse file
    match file with
    | none => exact Nat.zero_le _
    | some content =>
      simp only [loadHook]
      split_ifs with hraw
      · exact Nat.zero_le _
      · refine le_trans (List.length_filterMap_le _ _) ?_
        rw [List.length_drop]
        omega
  · intro es
    rw [ingestList_eq_take es [] (Nat.zero_le _), List.append_nil]
  · intro es hlen
    rw [ingestList_eq_take es [] (Nat.zero_le _), List.append_nil]
    match es, hlen with
    | e :: es', hlen =>
      have h' : es'.reverse.length = MAX_RECENT_PER_HOOK := by
        simp only [List.length_cons] at hlen
        simp [List.length_reverse]
        omega
      rw [List.reverse_cons, List.drop_one, List.tail_cons, List.take_left' h']

/-- The 501 distinct raw events of the witness. -/
def ingestBatch : List Json :=
  (List.range (MAX_RECENT_PER_HOOK + 1)).map (fun i => Json.num (Int.ofNat i))

/-- Witness for `claim1_amended`: ingesting 501 raw events into an empty
cache keeps exactly the last 500, newest first. -/
theorem claim1_witness :
    ingestBatch.length = MAX_RECENT_PER_HOOK + 1 ∧
    ingestList ingestBatch ([] : List Json) = (ingestBatch.drop 1).reverse := by
  have hlen : ingestBatch.length = MAX_RECENT_PER_HOOK + 1 := by
    rw [ingestBatch, List.length_map, List.length_range]
  exact ⟨hlen, claim1_amended.2.2.2 _ hlen⟩

/-- First stored record on disk (oldest, written first):
exactly `JSON.stringify` of the event object. -/
def lineA : String := "\x7b\"id\":\"a\",\"hook\":\"tracks\",\"receivedAt\":\"t1\",\"meta\":null,\"payload\":null\x7d"

/-- The JSON object `JSON.parse(lineA)` yields. -/
def jEvtA : Json := mkEvent "a" "tracks" "t1" .null .null

/-- Second stored record on disk (newer, written second). -/
def lineB : String := "\x7b\"id\":\"b\",\"hook\":\"tracks\",\"receivedAt\":\"t2\",\"meta\":null,\"payload\":null\x7d"

/-- The JSON object `JSON.parse(lineB)` yields. -/
def jEvtB : Json := mkEvent "b" "tracks" "t2" .null .null

/-- The platform `JSON.parse` restricted to the two stored lines (its
actual value on those inputs; anything else is treated as a parse
failure, which the fixture never hits). -/
def jparseLog (l : String) : Option Json :=
  if l = lineA then some jEvtA else if l = lineB then some jEvtB else none

/-- The channel's log file: two well-formed records, oldest first, as the
append-only writer produces. -/
def rawLogAB : String := lineA ++ "\n" ++ lineB

/-- A fresh event ingested after hydration (timestamp `t3`, later than
both stored records). -/
def jEvtC : Json := mkEvent "c" "tracks" "t3" .null .null

/-- "Ordered most-recent-first": each cache entry's `receivedAt` is not
older than the next entry's (the claim's ordering requirement, stated on
adjacent entries; the order is total so this is equivalent to global
non-increasing order). -/
def isMostRecentFirst : List Json → Bool
  | [] => true
  | [_] => true
  | x :: y :: rest => !(decide (jsStrLt (recvOf x) (recvOf y))) && isMostRecentFirst (y :: rest)

/-- Claim C1 is false as stated for a cache that went through the lazy
disk hydration: `loadHook` returns the records in *file order* (oldest
first) and `ensureHookLoaded` installs that array unchanged, so after one
further ingest through `storeEvent` the cache is `[newest, oldest,
second-newest]` — not most-recent-first.  (The two stored lines are
exactly the serialized events, confirming the fixture is a log this very
program writes.) -/
theorem claim1_counterexample :
    lineA = jEvtA.render ∧
    lineB = jEvtB.render ∧
    loadHook jparseLog (some rawLogAB) = [jEvtA, jEvtB] ∧
    storeCachePush jEvtC (loadHook jparseLog (some rawLogAB)) = [jEvtC, jEvtA, jEvtB] ∧
    jsStrLt (recvOf jEvtA) (recvOf jEvtB) ∧
    isMostRecentFirst (storeCachePush jEvtC (loadHook jparseLog (some rawLogAB))) = false := by
  refine ⟨rfl, rfl, rfl, rfl, by decide, rfl⟩

/-! ## Claim 4: disk hydration pipeline -/

/-- The window of lines `loadHook` considers: trim the raw file text,
split on newlines, drop blank lines, keep the last
`MAX_RECENT_PER_HOOK`. -/
def keptLines (content : String) : List String :=
  let lines := (jsSplit '\n' (jsTrim content)).filter (fun l => l ≠ "")
  lines.drop (lines.length - MAX_RECENT_PER_HOOK)

/-- A record line parsing to a truthy JSON value. -/
def jRecA : Json := .obj [("a", .num 1)]

/-- Another record line parsing to a truthy JSON value. -/
def jRecB : Json := .obj [("b", .num 2)]

/-- The platform `JSON.parse` on the three lines of the fixture file (its
actual value there: `JSON.parse("0")` succeeds and yields the number
`0`). -/
def jparseZero (l : String) : Option Json :=
  if l = "\x7b\"a\":1\x7d" then some jRecA
  else if l = "0" then some (Json.num 0)
  else if l = "\x7b\"b\":2\x7d" then some jRecB
  else none

/-- A three-line log file whose middle line is valid JSON (`0`). -/
def rawZero : String := "\x7b\"a\":1\x7d\n0\n\x7b\"b\":2\x7d"

/-- Claim C4 is false as stated: the middle line `0` of the fixture file
parses successfully (`JSON.parse("0") = 0`, no exception), so under the
claim — which discards only lines that *fail to parse* — the result would
be the three parsed values in file order; but `.filter(Boolean)` on line
73 also drops successfully parsed *falsy* values, so the code returns
only the two objects. -/
theorem claim4_counterexample :
    jparseZero "0" = some (Json.num 0) ∧
    loadHook jparseZero (some rawZero) = [jRecA, jRecB] ∧
    loadHook jparseZero (some rawZero) ≠ [jRecA, Json.num 0, jRecB] := by
  refine ⟨rfl, rfl, fun h => ?_⟩
  have h2 := congrArg List.length h
  rw [show (loadHook jparseZero (some rawZero)).length = 2 from rfl] at h2
  simp at h2

theorem filterMap_truthy_sublist (L : List String) (f : String → Option Json) :
    (L.filterMap (fun l =>
        match f l with
        | none => none
        | some j => if jsFalsy j then none else some j)).Sublist
      (L.filterMap f) := by
  induction L with
  | nil => simp
  | cons l L ih =>
    simp only [List.filterMap_cons]
    cases hf : f l with
    | none => exact ih
    | some j =>
      by_cases hfal : jsFalsy j
      · simp only [hfal, if_pos]
        exact ih.cons j
      · simp only [hfal, if_neg, Bool.false_eq_true, not_false_iff]
        exact ih.cons₂ j

/-- Claim C4 (amended): `loadHook` returns empty when the file does not
exist; otherwise it trims the raw text, splits into lines, drops blank
lines, keeps only the last `MAX_RECENT_PER_HOOK` of them (a suffix of the
line list, of bounded length), parses each kept line, and — never raising
— silently discards every line that fails to parse *and additionally
every line whose parsed value is JS-falsy (`null`, `false`, `0`, `""`)*;
the surviving records come back in file order (an order-preserving
sublist of the kept lines' parses), a record appearing in the result
exactly when some kept line parses to it and it is truthy. -/
theorem claim4_amended :
    (∀ jparse : String → Option Json, loadHook jparse none = []) ∧
    (∀ (jparse : String → Option Json) (content : String),
      loadHook jparse (some content) =
        (keptLines content).filterMap (fun l =>
          match jparse l with
          | none => none
          | some j => if jsFalsy j then none else some j)) ∧
    (∀ (jparse : String → Option Json) (content : String),
      (loadHook jparse (some content)).Sublist
        ((keptLines content).filterMap jparse)) ∧
    (∀ content : String,
      (keptLines content).length ≤ MAX_RECENT_PER_HOOK ∧
      (keptLines content).IsSuffix
        ((jsSplit '\n' (jsTrim content)).filter (fun l => l ≠ ""))) ∧
    (∀ (jparse : String → Option Json) (content : String) (j : Json),
      j ∈ loadHook jparse (some content) ↔
        (jsFalsy j = false ∧ ∃ l ∈ keptLines content, jparse l = some j)) := by
  have key : ∀ (jparse : String → Option Json) (content : String),
      loadHook jparse (some content) =
        (keptLines content).filterMap (fun l =>
          match jparse l with
          | none => none
          | some j => if jsFalsy j then none else some j) := by
    intro jparse content
    simp only [loadHook, keptLines]
    split_ifs with h
    · rw [h]
      rfl
    · rfl
  refine ⟨fun _ => rfl, key, ?_, ?_, ?_⟩
  · intro jparse content
    rw [key]
    exact filterMap_truthy_sublist _ _
  · intro content
    constructor
    · simp only [keptLines, List.length_drop]
      omega
    · exact List.drop_suffix _ _
  · intro jparse content j
    rw [key, List.mem_filterMap]
    constructor
    · rintro ⟨l, hl, hg⟩
      cases hf : jparse l with
      | none => rw [hf] at hg; exact absurd hg (by simp)
      | some j' =>
        rw [hf] at hg
        by_cases hfal : jsFalsy j'
        · simp [hfal] at hg
        · simp only [hfal] at hg
          have hj : j' = j := by
            simpa using hg
          subst hj
          exact ⟨by simpa using hfal, l, hl, hf⟩
    · rintro ⟨hnf, l, hl, hp⟩
      refine ⟨l, hl, ?_⟩
      rw [hp]
      simp [hnf]

/-! ## Claim 5: deep key search -/

/-- A deep-search predicate that only ever fires on pairs carrying a
present key (the shape of the `eventMatchesFieldToken` callback, which
rejects the root's `null` key immediately). -/
def keyedPred (pred : String → Json → Bool) : Option String → Json → Bool :=
  fun k? v =>
    match k? with
    | none => false
    | some k => pred k v

mutual
/-- Every `(key, value)` pair the `deepAny` work list visits below `v`
(including `v` itself) that carries a present key; array elements carry
the key of the nearest enclosing object property. -/
def carried (key : Option String) (v : Json) : List (String × Json) :=
  (match key with
   | some k => [(k, v)]
   | none => []) ++
  (match v with
   | .arr xs => carriedElems key xs
   | .obj kvs => carriedFields kvs
   | _ => [])

/-- Carried pairs of the elements of an array under the enclosing key. -/
def carriedElems (key : Option String) : List Json → List (String × Json)
  | [] => []
  | x :: rest => carried key x ++ carriedElems key rest

/-- Carried pairs below the entries of an object. -/
def carriedFields : List (String × Json) → List (String × Json)
  | [] => []
  | (k, v) :: rest => carried (some k) v ++ carriedFields rest
end

theorem deepAnyElems_carried (pred : String → Json → Bool) (xs : List Json)
    (hxs : ∀ x ∈ xs, ∀ key, deepAnyVal (keyedPred pred) key x =
      (carried key x).any (fun kv => pred kv.1 kv.2)) :
    ∀ key, deepAnyElems (keyedPred pred) key xs =
      (carriedElems key xs).any (fun kv => pred kv.1 kv.2) := by
  induction xs with
  | nil => intro key; rfl
  | cons x rest ih =>
    intro key
    simp only [deepAnyElems, carriedElems, List.any_append]
    rw [hxs x (List.mem_cons_self x rest) key,
      ih (fun y hy => hxs y (List.mem_cons_of_mem x hy)) key]

theorem deepAnyFields_carried (pred : String → Json → Bool) (kvs : List (String × Json))
    (hkvs : ∀ kv ∈ kvs, ∀ key, deepAnyVal (keyedPred pred) key kv.2 =
      (carried key kv.2).any (fun kv => pred kv.1 kv.2)) :
    deepAnyFields (keyedPred pred) kvs =
      (carriedFields kvs).any (fun kv => pred kv.1 kv.2) := by
  induction kvs with
  | nil => rfl
  | cons kv rest ih =>
    obtain ⟨k, v⟩ := kv
    simp only [deepAnyFields, carriedFields, List.any_append]
    rw [hkvs (k, v) (List.mem_cons_self _ rest) (some k),
      ih (fun y hy => hkvs y (List.mem_cons_of_mem _ hy))]

theorem deepAnyVal_carried (pred : String → Json → Bool) (v : Json) :
    ∀ key, deepAnyVal (keyedPred pred) key v =
      (carried key v).any (fun kv => pred kv.1 kv.2) := by
  induction v using Json.indOn with
  | hnull =>
    intro key
    cases key <;> simp [deepAnyVal, carried, keyedPred]
  | hbool b =>
    intro key
    cases key <;> simp [deepAnyVal, carried, keyedPred]
  | hnum n =>
    intro key
    cases key <;> simp [deepAnyVal, carried, keyedPred]
  | hstr s =>
    intro key
    cases key <;> simp [deepAnyVal, carried, keyedPred]
  | harr xs ih =>
    intro key
    have he := deepAnyElems_carried pred xs ih key
    cases key <;>
      simp [deepAnyVal, carried, keyedPred, List.any_append, he]
  | hobj kvs ih =>
    intro key
    have he := deepAnyFields_carried pred kvs ih
    cases key <;>
      simp [deepAnyVal, carried, keyedPred, List.any_append, he]

mutual
/-- Every object property anywhere in a value (the claim's notion of
"object property" found by a depth-first traversal). -/
def objProps : Json → List (String × Json)
  | .arr xs => objPropsElems xs
  | .obj kvs => objPropsFields kvs
  | _ => []

/-- Object properties below the elements of an array. -/
def objPropsElems : List Json → List (String × Json)
  | [] => []
  | x :: rest => objProps x ++ objPropsElems rest

/-- The entries of an object together with all properties below them. -/
def objPropsFields : List (String × Json) → List (String × Json)
  | [] => []
  | (k, v) :: rest => (k, v) :: (objProps v ++ objPropsFields rest)
end

/-- The field-token match exactly as claim C5 states it. -/
def specFieldTokenMatch (evt : Json) (keyLower valueLower : String) : Bool :=
  (objProps evt).any fun kv =>
    jsToLower kv.1 == keyLower && strIncludes (jsToLower (stringifySafeJ kv.2)) valueLower

/-- The event refuting claim C5's "if and only if": the only object
property with key `a` is `("a", ["x\ny"])`, whose stringification
`["x\ny"]` renders the newline as the two characters `\` `n`. -/
def evClaim5 : Json := .obj [("a", .arr [.str "x\ny"])]

/-- Claim C5 is false as stated: the token `(a, "x\ny")` (a quoted token
value may contain a raw newline) matches in the code — the array element
is visited carrying the enclosing key `a` and its `stringifySafe` is the
*raw* string `x\ny` — yet no object property satisfies the claim's
predicate, since the property's JSON-stringified value escapes the
newline. -/
theorem claim5_counterexample :
    eventMatchesFieldToken evClaim5 "a" "x\ny" = true ∧
    specFieldTokenMatch evClaim5 "a" "x\ny" = false :=
  ⟨rfl, rfl⟩

/-- Claim C5 (amended): the field token `(key, value)` (lower-cased)
matches exactly when the `deepAny` traversal visits some pair — an object
property, or an array element (at any depth of nested arrays) carrying
the key of its nearest enclosing object property — whose key is nonempty
and equals the token key case-insensitively and whose stringified value
contains the token value case-insensitively; in particular the claim's
concrete example holds: `{"Driver":{"Callsign":"51"}}` matches
`callsign:51`. -/
theorem claim5_amended :
    (∀ (evt : Json) (keyLower valueLower : String),
      eventMatchesFieldToken evt keyLower valueLower = true ↔
        ∃ kv ∈ carried none evt,
          kv.1 ≠ "" ∧ jsToLower kv.1 = keyLower ∧
          strIncludes (jsToLower (stringifySafeJ kv.2)) valueLower = true) ∧
    eventMatchesFieldToken evClaim2 "callsign" "51" = true := by
  constructor
  · intro evt kL vL
    have h := deepAnyVal_carried
      (fun f val =>
        if f = "" then false
        else if jsToLower f ≠ kL then false
        else strIncludes (jsToLower (stringifySafeJ val)) vL) evt none
    rw [show eventMatchesFieldToken evt kL vL =
        (carried none evt).any (fun kv =>
          if kv.1 = "" then false
          else if jsToLower kv.1 ≠ kL then false
          else strIncludes (jsToLower (stringifySafeJ kv.2)) vL) from h]
    rw [List.any_eq_true]
    constructor
    · rintro ⟨kv, hkv, hp⟩
      by_cases h1 : kv.1 = ""
      · rw [if_pos h1] at hp
        exact absurd hp (by simp)
      · rw [if_neg h1] at hp
        by_cases h2 : jsToLower kv.1 ≠ kL
        · rw [if_pos h2] at hp
          exact absurd hp (by simp)
        · rw [if_neg h2] at hp
          exact ⟨kv, hkv, h1, not_not.mp h2, hp⟩
    · rintro ⟨kv, hkv, h1, h2, hp⟩
      refine ⟨kv, hkv, ?_⟩
      rw [if_neg h1, if_neg (not_not_intro h2)]
      exact hp
  · rfl

/-! ## Claim 6: combined matcher -/

theorem eventMatchesRest_iff (evt : Json) (q : String) :
    eventMatchesRest evt q = true ↔
      ((∀ ft ∈ (parseTokens (normalizeQ q)).fieldTokens,
          eventMatchesFieldToken evt ft.1 ft.2 = true) ∧
       (∀ tt ∈ (parseTokens (normalizeQ q)).textTokens,
          eventMatchesTextToken evt tt = true)) := by
  have htok : parseTokens "" = Tokens.mk [] [] := by
    unfold parseTokens tokenizeQuery tokenizeLoop
    rfl
  unfold eventMatchesRest
  by_cases hq : normalizeQ q = ""
  · simp only [hq, if_pos, List.all_eq_true]
    rw [htok]
    simp
  · rw [if_neg hq, Bool.and_eq_true, List.all_eq_true, List.all_eq_true]

/-- Claim C6 (confirmed): the combined matcher accepts an event exactly
when the selected-field filter is absent (blank trimmed value) or
accepts, and every field token of the parsed advanced query matches, and
every text token matches; an empty normalized query contributes no tokens
and is trivially satisfied.  (Acceptance means the matcher returns
`true`; when the selected-field filter throws, the matcher throws and in
particular does not accept.) -/
theorem claim6_combined_matcher :
    ∀ (evt : Json) (q field value : String),
      eventMatches evt q field value = some true ↔
        ((jsTrim value = "" ∨ eventMatchesSelectedField evt field value = some true) ∧
         (∀ ft ∈ (parseTokens (normalizeQ q)).fieldTokens,
            eventMatchesFieldToken evt ft.1 ft.2 = true) ∧
         (∀ tt ∈ (parseTokens (normalizeQ q)).textTokens,
            eventMatchesTextToken evt tt = true)) := by
  intro evt q field value
  unfold eventMatches
  by_cases hv : value ≠ "" ∧ jsTrim value ≠ ""
  · rw [if_pos hv]
    cases hsf : eventMatchesSelectedField evt field value with
    | none =>
      simp [hv.2]
    | some b =>
      cases b with
      | false => simp [hv.2]
      | true => simp [eventMatchesRest_iff]
  · rw [if_neg hv]
    have hv' : jsTrim value = "" := by
      by_cases h0 : value = ""
      · rw [h0]
        rfl
      · push_neg at hv
        exact hv h0
    simp [hv', eventMatchesRest_iff]

/-! ## Claim 7: NDJSON export -/

theorem hexDigit_ne_nl : ∀ k, k < 16 → hexDigit k ≠ '\n' := by decide

theorem digitCh_ne_nl : ∀ k, k < 10 → digitCh k ≠ '\n' := by decide

theorem escChar_no_nl (c : Char) : '\n' ∉ escChar c := by
  unfold escChar
  split_ifs with h1 h2 h3 h4 h5 h6 h7 h8
  · simp
  · simp
  · simp
  · simp
  · simp
  · simp
  · simp
  · intro hmem
    simp only [List.mem_cons, List.not_mem_nil, or_false] at hmem
    rcases hmem with h | h | h | h | h | h
    · exact absurd h (by decide)
    · exact absurd h (by decide)
    · exact absurd h (by decide)
    · exact absurd h (by decide)
    · exact hexDigit_ne_nl (c.toNat / 16) (by omega) h.symm
    · exact hexDigit_ne_nl (c.toNat % 16) (by omega) h.symm
  · intro hmem
    simp only [List.mem_singleton] at hmem
    exact h3 hmem.symm

theorem jsonEscape_no_nl (s : String) : '\n' ∉ (jsonEscape s).data := by
  unfold jsonEscape
  intro hmem
  rw [show (String.mk (s.data.flatMap escChar)).data = s.data.flatMap escChar from rfl] at hmem
  rcases List.mem_flatMap.mp hmem with ⟨c, _, hc⟩
  exact escChar_no_nl c hc

theorem natDigits_no_nl : ∀ n, '\n' ∉ natDigits n := by
  intro n
  induction n using natDigits.induct with
  | case1 n h =>
    rw [natDigits, dif_pos h]
    intro hmem
    simp only [List.mem_singleton] at hmem
    exact digitCh_ne_nl n h hmem.symm
  | case2 n h ih =>
    rw [natDigits, dif_neg h]
    intro hmem
    rcases List.mem_append.mp hmem with hm | hm
    · exact ih hm
    · simp only [List.mem_singleton] at hm
      exact digitCh_ne_nl (n % 10) (Nat.mod_lt n (by omega)) hm.symm

theorem intRender_no_nl (n : Int) : '\n' ∉ (intRender n).data := by
  cases n with
  | ofNat m => exact natDigits_no_nl m
  | negSucc m =>
    intro hmem
    rcases List.mem_cons.mp hmem with hm | hm
    · exact absurd hm (by decide)
    · exact natDigits_no_nl (m + 1) hm

theorem renderElems_no_nl (xs : List Json)
    (h : ∀ x ∈ xs, '\n' ∉ (Json.render x).data) :
    '\n' ∉ (Json.renderElems xs).data := by
  induction xs with
  | nil => simp [Json.renderElems]
  | cons x rest ih =>
    cases rest with
    | nil =>
      simpa [Json.renderElems] using h x (List.mem_cons_self x [])
    | cons y rest' =>
      rw [Json.renderElems]
      intro hmem
      simp only [String.data_append] at hmem
      rcases List.mem_append.mp hmem with hm | hm
      · rcases List.mem_append.mp hm with hm' | hm'
        · exact h x (List.mem_cons_self _ _) hm'
        · exact absurd hm' (by simp)
      · exact ih (fun z hz => h z (List.mem_cons_of_mem x hz)) hm

theorem renderFields_no_nl (kvs : List (String × Json))
    (h : ∀ kv ∈ kvs, '\n' ∉ (Json.render kv.2).data) :
    '\n' ∉ (Json.renderFields kvs).data := by
  induction kvs with
  | nil => simp [Json.renderFields]
  | cons kv rest ih =>
    obtain ⟨k, v⟩ := kv
    cases rest with
    | nil =>
      rw [Json.renderFields]
      intro hmem
      simp only [String.data_append] at hmem
      rcases List.mem_append.mp hmem with hm | hm
      · rcases List.mem_append.mp hm with hm' | hm'
        · rcases List.mem_append.mp hm' with hm'' | hm''
          · exact absurd hm'' (by simp)
          · exact jsonEscape_no_nl k hm''
        · exact absurd hm' (by simp)
      · exact h (k, v) (List.mem_cons_self _ _) hm
    | cons kv' rest' =>
      rw [Json.renderFields]
      intro hmem
      simp only [String.data_append] at hmem
      rcases List.mem_append.mp hmem with hm | hm
      · rcases List.mem_append.mp hm with hm' | hm'
        · rcases List.mem_append.mp hm' with hm'' | hm''
          · rcases List.mem_append.mp hm'' with hm3 | hm3
            · rcases List.mem_append.mp hm3 with hm4 | hm4
              · exact absurd hm4 (by simp)
              · exact jsonEscape_no_nl k hm4
            · exact absurd hm3 (by simp)
          · exact h (k, v) (List.mem_cons_self _ _) hm''
        · exact absurd hm' (by simp)
      · exact ih (fun z hz => h z (List.mem_cons_of_mem _ hz)) hm

theorem render_no_nl (j : Json) : '\n' ∉ (Json.render j).data := by
  induction j using Json.indOn with
  | hnull => simp [Json.render]
  | hbool b => cases b <;> simp [Json.render]
  | hnum n => exact intRender_no_nl n
  | hstr s =>
    rw [Json.render]
    intro hmem
    simp only [String.data_append] at hmem
    rcases List.mem_append.mp hmem with hm | hm
    · rcases List.mem_append.mp hm with hm' | hm'
      · exact absurd hm' (by simp)
      · exact jsonEscape_no_nl s hm'
    · exact absurd hm (by simp)
  | harr xs ih =>
    rw [Json.render]
    intro hmem
    simp only [String.data_append] at hmem
    rcases List.mem_append.mp hmem with hm | hm
    · rcases List.mem_append.mp hm with hm' | hm'
      · exact absurd hm' (by simp)
      · exact renderElems_no_nl xs ih hm'
    · exact absurd hm (by simp)
  | hobj kvs ih =>
    rw [Json.render]
    intro hmem
    simp only [String.data_append] at hmem
    rcases List.mem_append.mp hmem with hm | hm
    · rcases List.mem_append.mp hm with hm' | hm'
      · exact absurd hm' (by simp)
      · exact renderFields_no_nl kvs ih hm'
    · exact absurd hm (by simp)

/-- The body as "one JSON line per event": each event's serialization
followed by one newline, concatenated. -/
def linesConcat : List Event → String
  | [] => ""
  | e :: rest => renderEvent e ++ "\n" ++ linesConcat rest

theorem jsJoin_lines (K : List Event) (h : K ≠ []) :
    jsJoin "\n" (K.map renderEvent) ++ "\n" = linesConcat K := by
  induction K with
  | nil => exact absurd rfl h
  | cons e rest ih =>
    cases rest with
    | nil => simp [jsJoin, linesConcat]
    | cons f rest' =>
      rw [List.map_cons, List.map_cons,
        show jsJoin "\n" (renderEvent e :: renderEvent f :: rest'.map renderEvent) =
          renderEvent e ++ "\n" ++ jsJoin "\n" (renderEvent f :: rest'.map renderEvent) from rfl,
        linesConcat,
        String.append_assoc (renderEvent e ++ "\n") _ "\n"]
      rw [show jsJoin "\n" (renderEvent f :: rest'.map renderEvent) ++ "\n" =
          jsJoin "\n" ((f :: rest').map renderEvent) ++ "\n" by rw [List.map_cons]]
      rw [ih (by simp)]

theorem ndjsonBody_eq (K : List Event) : ndjsonBody K = linesConcat K := by
  cases K with
  | nil => rfl
  | cons e rest =>
    rw [ndjsonBody, if_pos (by simp)]
    exact jsJoin_lines (e :: rest) (by simp)

theorem jsFilter_eq (p : α → Option Bool) (l : List α) (h : ∀ x ∈ l, p x ≠ none) :
    jsFilter p l = some (l.filter (fun x => p x == some true)) := by
  induction l with
  | nil => rfl
  | cons x xs ih =>
    have hx := h x (List.mem_cons_self _ _)
    cases hp : p x with
    | none => exact absurd hp hx
    | some b =>
      have ihx := ih (fun y hy => h y (List.mem_cons_of_mem x hy))
      cases b with
      | true => simp [jsFilter, hp, ihx, List.filter_cons]
      | false => simp [jsFilter, hp, ihx, List.filter_cons]

theorem eventMatchesE_trivial (e : Event) (q field value : String)
    (h : wantsFilter q value = false) :
    eventMatchesE e q field value = some true := by
  have hq : q = "" ∧ (¬ value = "" → jsTrim value = "") := by
    simpa [wantsFilter] using h
  have hcond : ¬(value ≠ "" ∧ jsTrim value ≠ "") := by
    by_cases h0 : value = ""
    · exact fun hc => hc.1 h0
    · exact fun hc => hc.2 (hq.2 h0)
  unfold eventMatchesE eventMatches
  rw [if_neg hcond, hq.1]
  rfl

theorem routeFilter_eq (events : List Event) (q field value : String)
    (h : ∀ e ∈ events, eventMatchesE e q field value ≠ none) :
    routeFilter events q field value =
      some (events.filter (fun e => eventMatchesE e q field value == some true)) := by
  unfold routeFilter
  by_cases hw : wantsFilter q value = true
  · rw [if_pos hw]
    exact jsFilter_eq _ _ h
  · rw [if_neg hw]
    have hall : ∀ e ∈ events, (eventMatchesE e q field value == some true) = true := by
      intro e he
      rw [eventMatchesE_trivial e q field value (by revert hw; cases wantsFilter q value <;> simp)]
      rfl
    rw [List.filter_eq_self.mpr hall]

theorem capped_eq_take (l : List α) :
    (if l.length > MAX_EXPORT then l.take MAX_EXPORT else l) = l.take MAX_EXPORT := by
  split_ifs with h
  · rfl
  · exact (List.take_of_length_le (by omega)).symm

theorem sortEvents_sorted_desc (l : List Event) :
    (sortEvents l).Pairwise (fun a b => b.receivedAt ≤ a.receivedAt) :=
  (List.sorted_insertionSort sortKeep l).imp fun hab => (sortKeep_iff _ _).mp hab

/-- The query-filtered events of a pipeline, in cache order. -/
def matchedEvents (events : List Event) (qRaw field value : String) : List Event :=
  events.filter (fun e => eventMatchesE e (normalizeQ qRaw) field value == some true)

/-- What claim C7 asserts of the NDJSON export pipeline on the gathered
scope events: filter, sort by `receivedAt` descending, cap *after*
sorting at `MAX_EXPORT` (so only the oldest sorted matches are dropped),
and serialize one newline-free JSON line per event with a trailing
newline, the empty body having no newline at all. -/
def ndjsonSpec (events : List Event) (qRaw field value : String) : Prop :=
  (ndjsonOf events qRaw field value =
    some (ndjsonBody ((sortEvents (matchedEvents events qRaw field value)).take MAX_EXPORT))) ∧
  (ndjsonBody ((sortEvents (matchedEvents events qRaw field value)).take MAX_EXPORT) =
    linesConcat ((sortEvents (matchedEvents events qRaw field value)).take MAX_EXPORT)) ∧
  (∀ e ∈ (sortEvents (matchedEvents events qRaw field value)).take MAX_EXPORT,
    '\n' ∉ (renderEvent e).data) ∧
  ((sortEvents (matchedEvents events qRaw field value)).take MAX_EXPORT).Pairwise
    (fun a b => b.receivedAt ≤ a.receivedAt) ∧
  (∀ d ∈ (sortEvents (matchedEvents events qRaw field value)).drop MAX_EXPORT,
    ∀ k ∈ (sortEvents (matchedEvents events qRaw field value)).take MAX_EXPORT,
      d.receivedAt ≤ k.receivedAt) ∧
  (matchedEvents events qRaw field value = [] →
    ndjsonOf events qRaw field value = some "")

/-- Claim C7 (confirmed): whenever the filter evaluates without throwing
(the selected-field `TypeError` of C2 being the only failure mode), the
NDJSON export emits exactly the claimed pipeline: combined filter, sort
by `receivedAt` descending, truncation to `MAX_EXPORT` after sorting
(every dropped event is at least as old as every kept one), one
JSON-encoded event per newline-free line with a trailing newline when at
least one event is emitted, and the empty body with no trailing newline
when no event matches. -/
theorem claim7_ndjson_export :
    ∀ (events : List Event) (qRaw field value : String),
      (∀ e ∈ events, eventMatchesE e (normalizeQ qRaw) field value ≠ none) →
      ndjsonSpec events qRaw field value := by
  intro events qRaw field value h
  have hf := routeFilter_eq events (normalizeQ qRaw) field value h
  have hmain : ndjsonOf events qRaw field value =
      some (ndjsonBody ((sortEvents (matchedEvents events qRaw field value)).take MAX_EXPORT)) := by
    simp only [ndjsonOf]
    rw [hf]
    show some (ndjsonBody
        (if (sortEvents (matchedEvents events qRaw field value)).length > MAX_EXPORT
          then (sortEvents (matchedEvents events qRaw field value)).take MAX_EXPORT
          else sortEvents (matchedEvents events qRaw field value))) = _
    rw [capped_eq_take]
  have hsorted := sortEvents_sorted_desc (matchedEvents events qRaw field value)
  refine ⟨hmain, ndjsonBody_eq _, fun e _ => render_no_nl (eventToJson e), ?_, ?_, ?_⟩
  · exact hsorted.sublist (List.take_sublist _ _)
  · have hsorted' : ((sortEvents (matchedEvents events qRaw field value)).take MAX_EXPORT ++
        (sortEvents (matchedEvents events qRaw field value)).drop MAX_EXPORT).Pairwise
          (fun a b => b.receivedAt ≤ a.receivedAt) := by
      rw [List.take_append_drop]
      exact hsorted
    have hsplit := (List.pairwise_append.mp hsorted').2.2
    intro d hd k hk
    exact hsplit k hk d hd
  · intro hM
    rw [hmain, hM]
    rfl

/-- A first witness event (older). -/
def wEv1 : Event := ⟨"w1", "tracks", "t1", .null, .obj []⟩

/-- A second witness event (newer). -/
def wEv2 : Event := ⟨"w2", "tracks", "t2", .null, .obj []⟩

/-- Witness for `claim7_ndjson_export` at a concrete two-event scope with
no filter. -/
theorem claim7_witness :
    (∀ e ∈ [wEv1, wEv2], eventMatchesE e (normalizeQ "") "" "" ≠ none) ∧
    ndjsonSpec [wEv1, wEv2] "" "" "" := by
  have hh : ∀ e ∈ [wEv1, wEv2], eventMatchesE e (normalizeQ "") "" "" ≠ none := by
    decide
  exact ⟨hh, claim7_ndjson_export [wEv1, wEv2] "" "" "" hh⟩

/-! ## Claim 9: per-channel query count and limit -/

/-- Claim C9 (confirmed): whenever the filter evaluates without throwing,
the per-channel query returns as `count` the total number of cache events
matching the filter — an expression not involving the limit at all, so
the count is limit-independent — and as items the full ordered match list
when the parsed limit is `0`, otherwise its prefix of length
`min 5000 limit` (the page-size cap). -/
theorem claim9_query_limit :
    ∀ (arr : List Event) (qRaw field value : String) (lim : LimitParam),
      (∀ e ∈ arr, eventMatchesE e (normalizeQ qRaw) field value ≠ none) →
      (queryHook arr qRaw field value lim =
          some ((matchedEvents arr qRaw field value).length,
            if parseLimit lim = 0 then matchedEvents arr qRaw field value
            else (matchedEvents arr qRaw field value).take (min 5000 (parseLimit lim)))) ∧
      (∀ lim' : LimitParam,
        (queryHook arr qRaw field value lim).map Prod.fst =
          (queryHook arr qRaw field value lim').map Prod.fst) := by
  intro arr qRaw field value lim h
  have hf := routeFilter_eq arr (normalizeQ qRaw) field value h
  have heq : ∀ l : LimitParam,
      queryHook arr qRaw field value l =
        some ((matchedEvents arr qRaw field value).length,
          if parseLimit l = 0 then matchedEvents arr qRaw field value
          else (matchedEvents arr qRaw field value).take (min 5000 (parseLimit l))) := by
    intro l
    simp only [queryHook]
    rw [hf]
    rfl
  refine ⟨heq lim, fun lim' => ?_⟩
  rw [heq lim, heq lim']
  rfl

/-- Witness for `claim9_query_limit`: a two-event cache queried with no
filter and limit `1`. -/
theorem claim9_witness :
    (∀ e ∈ [wEv1, wEv2], eventMatchesE e (normalizeQ "") "" "" ≠ none) ∧
    queryHook [wEv1, wEv2] "" "" "" (.num 1) =
      some ((matchedEvents [wEv1, wEv2] "" "" "").length,
        (matchedEvents [wEv1, wEv2] "" "" "").take (min 5000 (parseLimit (.num 1)))) := by
  have hh : ∀ e ∈ [wEv1, wEv2], eventMatchesE e (normalizeQ "") "" "" ≠ none := by
    decide
  exact ⟨hh, (claim9_query_limit [wEv1, wEv2] "" "" "" (.num 1) hh).1⟩

/-! ## Claim 8: tabular-export escaping -/

/-- Standard CSV unescaping of one field, on characters: a field wrapped
in double quotes is stripped and its doubled quotes collapsed; anything
else is returned unchanged.  (Modelled from the claim's words "standard
CSV unescaping".) -/
def collapseDoubled : List Char → List Char
  | [] => []
  | [c] => [c]
  | c :: d :: rest =>
    if c = '"' ∧ d = '"' then '"' :: collapseDoubled rest
    else c :: collapseDoubled (d :: rest)

/-- Standard CSV unescaping on the character list of a field. -/
def csvUnescapeData (l : List Char) : List Char :=
  match l with
  | c :: rest =>
    if c = '"' ∧ rest ≠ [] ∧ rest.getLast? = some '"' then collapseDoubled rest.dropLast
    else l
  | [] => []

/-- Standard CSV unescaping of one field (modelled from the claim's
words). -/
def csvUnescape (s : String) : String :=
  String.mk (csvUnescapeData s.data)

theorem doubleQuotesCh_cons (c : Char) (rest : List Char) :
    doubleQuotesCh (c :: rest) =
      (if c = '"' then ['"', '"'] else [c]) ++ doubleQuotesCh rest := rfl

theorem collapseDoubled_quote_pair (X : List Char) :
    collapseDoubled ('"' :: '"' :: X) = '"' :: collapseDoubled X := by
  simp [collapseDoubled]

theorem collapseDoubled_cons_ne (c : Char) (hc : c ≠ '"') (X : List Char) :
    collapseDoubled (c :: X) = c :: collapseDoubled X := by
  cases X with
  | nil => rfl
  | cons d X' =>
    simp only [collapseDoubled]
    rw [if_neg (fun h => hc h.1)]

theorem collapse_doubleQuotes (l : List Char) :
    collapseDoubled (doubleQuotesCh l) = l := by
  induction l with
  | nil => rfl
  | cons c rest ih =>
    by_cases hc : c = '"'
    · subst hc
      rw [doubleQuotesCh_cons, if_pos rfl]
      show collapseDoubled ('"' :: '"' :: doubleQuotesCh rest) = _
      rw [collapseDoubled_quote_pair, ih]
    · rw [doubleQuotesCh_cons, if_neg hc]
      show collapseDoubled (c :: doubleQuotesCh rest) = _
      rw [collapseDoubled_cons_ne c hc, ih]

/-- Claim C8 (confirmed): `csvEscape` wraps a field in double quotes with
embedded quotes doubled exactly when it contains one of the characters of
the regex `/[",\n\r]/` — a double quote, a comma, or a newline character
(LF or CR) — and returns it unchanged otherwise; consequently a field
containing a comma, a double quote and a newline round-trips unchanged
through escaping followed by standard CSV unescaping (quote-doubling
law). -/
theorem claim8_csv_escape :
    ∀ s : String,
      ((∃ c ∈ s.data, c = '"' ∨ c = ',' ∨ c = '\n' ∨ c = '\r') →
        csvEscape (some s) = "\"" ++ String.mk (doubleQuotesCh s.data) ++ "\"") ∧
      ((¬ ∃ c ∈ s.data, c = '"' ∨ c = ',' ∨ c = '\n' ∨ c = '\r') →
        csvEscape (some s) = s) ∧
      ((',' ∈ s.data ∧ '"' ∈ s.data ∧ '\n' ∈ s.data) →
        csvUnescape (csvEscape (some s)) = s) := by
  intro s
  have hiff : hasCsvSpecial s = true ↔
      (∃ c ∈ s.data, c = '"' ∨ c = ',' ∨ c = '\n' ∨ c = '\r') := by
    unfold hasCsvSpecial
    rw [List.any_eq_true]
    constructor
    · rintro ⟨c, hc, hp⟩
      refine ⟨c, hc, ?_⟩
      simp only [Bool.or_eq_true, decide_eq_true_eq] at hp
      tauto
    · rintro ⟨c, hc, hp⟩
      refine ⟨c, hc, ?_⟩
      simp only [Bool.or_eq_true, decide_eq_true_eq]
      tauto
  refine ⟨?_, ?_, ?_⟩
  · intro hex
    simp only [csvEscape, Option.getD_some]
    rw [if_pos (hiff.mpr hex)]
  · intro hnot
    simp only [csvEscape, Option.getD_some]
    rw [if_neg (fun hc => hnot (hiff.mp hc))]
  · rintro ⟨h1, h2, h3⟩
    have hsp : hasCsvSpecial s = true := hiff.mpr ⟨'"', h2, Or.inl rfl⟩
    simp only [csvEscape, Option.getD_some]
    rw [if_pos hsp]
    have hdata : ("\"" ++ String.mk (doubleQuotesCh s.data) ++ "\"").data =
        '"' :: (doubleQuotesCh s.data ++ ['"']) := by
      simp [String.data_append]
    unfold csvUnescape
    rw [hdata]
    show String.mk (csvUnescapeData ('"' :: (doubleQuotesCh s.data ++ ['"']))) = s
    rw [csvUnescapeData, if_pos ⟨rfl, by simp, by rw [List.getLast?_concat]⟩,
      List.dropLast_concat, collapse_doubleQuotes]

/-- Witness for `claim8_csv_escape`: the field `a,"b"<newline>c`. -/
theorem claim8_witness :
    (',' ∈ "a,\"b\"\nc".data ∧ '"' ∈ "a,\"b\"\nc".data ∧ '\n' ∈ "a,\"b\"\nc".data) ∧
    csvUnescape (csvEscape (some "a,\"b\"\nc")) = "a,\"b\"\nc" := by
  have hc : (',' ∈ "a,\"b\"\nc".data ∧ '"' ∈ "a,\"b\"\nc".data ∧ '\n' ∈ "a,\"b\"\nc".data) := by
    decide
  exact ⟨hc, (claim8_csv_escape "a,\"b\"\nc").2.2 hc⟩

/-! ## Claim 10: in-place export sort mutates the cache -/

theorem updateStore_lookup_ne (store : EStore) (hook h' : String)
    (arr : List Event) (hne : h' ≠ hook) :
    (updateStore store hook arr).lookup h' = store.lookup h' := by
  induction store with
  | nil => rfl
  | cons kv rest ih =>
    obtain ⟨k, v⟩ := kv
    simp only [updateStore, List.map_cons] at ih ⊢
    by_cases hk : k = hook
    · have hne' : h' ≠ k := fun hh => hne (by rw [hh, hk])
      rw [if_pos hk]
      simp [List.lookup_cons, beq_false_of_ne hne', ih]
    · rw [if_neg hk]
      by_cases hh : h' = k
      · simp [List.lookup_cons, hh]
      · simp [List.lookup_cons, beq_false_of_ne hh, ih]

theorem updateStore_lookup_eq (store : EStore) (hook : String)
    (arr arr0 : List Event) (h : store.lookup hook = some arr0) :
    (updateStore store hook arr).lookup hook = some arr := by
  induction store with
  | nil => simp [List.lookup] at h
  | cons kv rest ih =>
    obtain ⟨k, v⟩ := kv
    simp only [updateStore, List.map_cons] at ih ⊢
    by_cases hk : k = hook
    · subst hk
      rw [if_pos rfl]
      simp [List.lookup_cons]
    · rw [if_neg hk]
      rw [List.lookup_cons] at h ⊢
      rw [show (hook == k) = false from beq_false_of_ne (Ne.symm hk)] at h ⊢
      exact ih h

/-- Claim C10 (confirmed): exporting a single channel (NDJSON or CSV)
with no query filter hands the live cache array itself to the in-place
`Array.prototype.sort`, so the operation returns the store with that
channel's cache permanently replaced by its `receivedAt`-descending
reordering (all other channels untouched); with the wildcard scope or
with any filter supplied, a fresh array is sorted and the returned store
is exactly the input store. -/
theorem claim10_export_mutation :
    ∀ (store : EStore) (scope qRaw field value : String),
      (scope ≠ "*" → wantsFilter (normalizeQ qRaw) value = false →
        (∃ body₁,
          exportNdjsonSt store scope qRaw field value =
            some (body₁,
              updateStore store scope (sortEvents ((store.lookup scope).getD [])))) ∧
        (∃ body₂,
          exportCsvSt store scope qRaw field value =
            some (body₂,
              updateStore store scope (sortEvents ((store.lookup scope).getD [])))) ∧
        (∀ h', h' ≠ scope →
          (updateStore store scope (sortEvents ((store.lookup scope).getD []))).lookup h' =
            store.lookup h') ∧
        (∀ arr0, store.lookup scope = some arr0 →
          (updateStore store scope (sortEvents ((store.lookup scope).getD []))).lookup scope =
            some (sortEvents arr0))) ∧
      ((scope = "*" ∨ wantsFilter (normalizeQ qRaw) value = true) →
        (∀ b st', exportNdjsonSt store scope qRaw field value = some (b, st') → st' = store) ∧
        (∀ b st', exportCsvSt store scope qRaw field value = some (b, st') → st' = store)) := by
  intro store scope qRaw field value
  constructor
  · intro hscope hw
    have hwne : ¬ (wantsFilter (normalizeQ qRaw) value = true) := by
      rw [hw]
      exact Bool.false_ne_true
    refine ⟨?_, ?_, ?_, ?_⟩
    · refine ⟨ndjsonBody
        (if (sortEvents ((store.lookup scope).getD [])).length > MAX_EXPORT
          then (sortEvents ((store.lookup scope).getD [])).take MAX_EXPORT
          else sortEvents ((store.lookup scope).getD [])), ?_⟩
      simp only [exportNdjsonSt]
      rw [if_neg hscope, if_neg hwne]
    · refine ⟨jsJoin "\n" (csvHeader ::
        (if (sortEvents ((store.lookup scope).getD [])).length > MAX_EXPORT
          then (sortEvents ((store.lookup scope).getD [])).take MAX_EXPORT
          else sortEvents ((store.lookup scope).getD [])).map csvRow) ++ "\n", ?_⟩
      simp only [exportCsvSt]
      rw [if_neg hscope, if_neg hwne]
    · intro h' hne
      exact updateStore_lookup_ne store scope h' _ hne
    · intro arr0 h0
      rw [updateStore_lookup_eq store scope _ arr0 h0, h0]
      rfl
  · intro hor
    by_cases hs : scope = "*"
    · constructor
      · intro b st'
        simp only [exportNdjsonSt, if_pos hs]
        cases hnd : ndjsonOf ((store.map Prod.snd).flatten) qRaw field value with
        | none => intro hc; exact absurd hc (by simp)
        | some body =>
          intro hc
          simp only [Option.some_inj] at hc
          exact (congrArg Prod.snd hc).symm
      · intro b st'
        simp only [exportCsvSt, if_pos hs]
        cases hnd : csvOf ((store.map Prod.snd).flatten) qRaw field value with
        | none => intro hc; exact absurd hc (by simp)
        | some body =>
          intro hc
          simp only [Option.some_inj] at hc
          exact (congrArg Prod.snd hc).symm
    · have hw : wantsFilter (normalizeQ qRaw) value = true := hor.resolve_left hs
      constructor
      · intro b st'
        simp only [exportNdjsonSt, if_neg hs, if_pos hw]
        cases hnd : ndjsonOf ((store.lookup scope).getD []) qRaw field value with
        | none => intro hc; exact absurd hc (by simp)
        | some body =>
          intro hc
          simp only [Option.some_inj] at hc
          exact (congrArg Prod.snd hc).symm
      · intro b st'
        simp only [exportCsvSt, if_neg hs, if_pos hw]
        cases hnd : csvOf ((store.lookup scope).getD []) qRaw field value with
        | none => intro hc; exact absurd hc (by simp)
        | some body =>
          intro hc
          simp only [Option.some_inj] at hc
          exact (congrArg Prod.snd hc).symm

/-- A channel map with one channel whose cache is in hydrated (oldest
first) order, so the export's sort actually reorders it. -/
def storeW : EStore := [("tracks", [wEv1, wEv2])]

/-- Witness for `claim10_export_mutation`: an unfiltered single-channel
export on a concrete store; the channel's cache changes from
`[wEv1, wEv2]` (oldest first) to `[wEv2, wEv1]` (newest first) as a side
effect. -/
theorem claim10_witness :
    ("tracks" ≠ "*") ∧ wantsFilter (normalizeQ "") "" = false ∧
    ((∃ body₁,
        exportNdjsonSt storeW "tracks" "" "" "" =
          some (body₁,
            updateStore storeW "tracks" (sortEvents ((storeW.lookup "tracks").getD [])))) ∧
      (∃ body₂,
        exportCsvSt storeW "tracks" "" "" "" =
          some (body₂,
            updateStore storeW "tracks" (sortEvents ((storeW.lookup "tracks").getD [])))) ∧
      (∀ h', h' ≠ "tracks" →
        (updateStore storeW "tracks" (sortEvents ((storeW.lookup "tracks").getD []))).lookup h' =
          storeW.lookup h') ∧
      (∀ arr0, storeW.lookup "tracks" = some arr0 →
        (updateStore storeW "tracks" (sortEvents ((storeW.lookup "tracks").getD []))).lookup "tracks" =
          some (sortEvents arr0))) ∧
    storeW.lookup "tracks" = some [wEv1, wEv2] ∧
    (updateStore storeW "tracks" (sortEvents ((storeW.lookup "tracks").getD []))).lookup "tracks" =
      some [wEv2, wEv1] := by
  refine ⟨by decide, rfl, ?_, rfl, rfl⟩
  exact (claim10_export_mutation storeW "tracks" "" "" "").1 (by decide) rfl
